import Mathlib

/-!
Shallow embedding of the aurora.rs staged audio framework: the bounded
shared-buffer channel (`src/channel/mod.rs`), the byte/bit stream reader
(`src/stream/mod.rs`) and the CAF muxer (`src/caf/mod.rs`), together with
theorems settling the specification claims about them.

Machine integers are modelled as `Nat`/`Int` with explicit `% 2 ^ w`
where the Rust code can overflow or truncate.  A Rust `Vec<u8>` is
modelled as the `List Nat` of its `len` elements (capacity, which only
affects allocation, is elided).  A `panic!` and an unbounded semaphore
wait are both modelled as the `fault` outcome; the channel operations use
a richer outcome type that separates the `PeerGone` panic from blocking.
-/

namespace Aurora

/-- Outcome of an operation that can panic (or block forever). -/
inductive Res (α : Type) where
  | ok (a : α)
  | fault
deriving DecidableEq, Repr

/-- Outcome of a channel operation: the `PeerGone` panic, a semaphore
wait with no permit available, or success. -/
inductive CRes (α : Type) where
  | peerGone
  | blocked
  | ok (a : α)
deriving DecidableEq, Repr

/-- The `Binary` record (`src/aurora.rs`): a byte chunk and the terminal
flag.  Bytes are `Nat`s below 256. -/
structure Bin where
  last : Bool
  data : List Nat
deriving DecidableEq, Repr

/-- `Binary::initialize`: the empty state a slot is pre-constructed to. -/
def emptyBin : Bin := ⟨false, []⟩

/-- `Binary::reinitialize`: clear the flag and truncate the data to 0,
keeping capacity (capacity is elided in the model). -/
def reinitBin (_b : Bin) : Bin := ⟨false, []⟩

/-- The shared channel (`struct Channel<T>` in `src/channel/mod.rs`) at
element type `Binary`: the slot array (`data`/`capacity`, the capacity
being `slots.length`), the two endpoint-alive counts, the two monotone
indices and the two semaphores' permit counts. -/
structure Chan where
  slots : List Bin
  rIdx : Nat
  wIdx : Nat
  rcRead : Nat
  rcWrite : Nat
  notEmpty : Nat
  notFull : Nat
deriving DecidableEq, Repr

/-- `channel::create::<Binary>(capacity)`: `capacity` slots
pre-constructed by `Initialize::initialize`, both alive counts 1,
indices 0, `not_empty` 0 and `not_full` `capacity`. -/
def createChan (capacity : Nat) : Chan :=
  ⟨List.replicate capacity emptyBin, 0, 0, 1, 1, 0, capacity⟩

/-- `channel::create` has no failure path in the source: it performs no
check on `capacity` and always returns the endpoint pair. -/
def createChanChecked (capacity : Nat) : Res Chan :=
  .ok (createChan capacity)

/-- `Source::read`: panic with `PeerGone` when the producer-alive count
is zero and `read == write`; otherwise acquire a `not_empty` permit
(blocking when none is available), read the slot at `read % capacity`,
bump `read` and release a `not_full` permit.  The observed record is
returned alongside the new channel state (the observer callback only
inspects it). -/
def readC (c : Chan) : CRes (Bin × Chan) :=
  if c.rcWrite = 0 ∧ c.rIdx = c.wIdx then .peerGone
  else if c.notEmpty = 0 then .blocked
  else
    let off := c.rIdx % c.slots.length
    let rec' := c.slots.getD off emptyBin
    .ok (rec', { c with rIdx := c.rIdx + 1,
                        notEmpty := c.notEmpty - 1,
                        notFull := c.notFull + 1 })

/-- `Sink::write`: panic with `PeerGone` when the consumer-alive count is
zero; otherwise acquire a `not_full` permit (blocking when none is
available), reinitialize the slot at `write % capacity`, run the mutator
on it, bump `write` and release a `not_empty` permit. -/
def writeC (f : Bin → Bin) (c : Chan) : CRes Chan :=
  if c.rcRead = 0 then .peerGone
  else if c.notFull = 0 then .blocked
  else
    let off := c.wIdx % c.slots.length
    let slot := c.slots.getD off emptyBin
    .ok { c with slots := c.slots.set off (f (reinitBin slot)),
                 wIdx := c.wIdx + 1,
                 notFull := c.notFull - 1,
                 notEmpty := c.notEmpty + 1 }

/-- `impl Drop for Sink`: the whole body is
`self.channel.rc_write.fetch_sub(1, Ordering::SeqCst)`.  No semaphore is
touched. -/
def sinkDrop (c : Chan) : Chan :=
  { c with rcWrite := c.rcWrite - 1 }

/-- `impl Drop for Source`: decrement the consumer-alive count. -/
def sourceDrop (c : Chan) : Chan :=
  { c with rcRead := c.rcRead - 1 }

/-- A sequence of `Sink::write` calls, failing as the first one fails. -/
def writeAll : List (Bin → Bin) → Chan → CRes Chan
  | [], c => .ok c
  | f :: fs, c =>
    match writeC f c with
    | .peerGone => .peerGone
    | .blocked => .blocked
    | .ok c' => writeAll fs c'

/-- A sequence of `Source::read` calls, collecting the records the
observers are invoked on, in order. -/
def readAll : Nat → Chan → CRes (List Bin × Chan)
  | 0, c => .ok ([], c)
  | m + 1, c =>
    match readC c with
    | .peerGone => .peerGone
    | .blocked => .blocked
    | .ok (r, c') =>
      match readAll m c' with
      | .peerGone => .peerGone
      | .blocked => .blocked
      | .ok (rs, c'') => .ok (r :: rs, c'')

/-! ## Byte stream reader (`src/stream/mod.rs`) -/

/-- `std::slice::bytes::copy_memory(d.slice_mut(s, s + bs.len()), bs)`:
overwrite the slice of `d` starting at `s` with `bs`.  Every use site in
the source satisfies the `slice_mut` bound `s + bs.length ≤ d.length`
(where it can fail, the caller models the failure explicitly). -/
def sliceWrite (d : List Nat) (s : Nat) (bs : List Nat) : List Nat :=
  d.take s ++ bs ++ d.drop (s + bs.length)

/-- The `Stream` struct: terminal flag last seen, position and length
within the internal buffer, the internal buffer (the `Vec`'s elements),
and the upstream `Binary` channel consumed through `Source::read`. -/
structure SState where
  last : Bool
  position : Nat
  length : Nat
  buffer : List Nat
  source : Chan
deriving DecidableEq, Repr

/-- `Stream::new`: `Vec::with_capacity(4096)` has length 0, so the
internal buffer starts empty. -/
def streamNew (source : Chan) : SState :=
  ⟨false, 0, 0, [], source⟩

/-- `Stream::update_buffer`: pull one record from the channel (a
`PeerGone` panic or a forever-blocked `acquire` both abort), then copy
its bytes into `b.slice_mut(0, len)`.  `b.reserve` only grows capacity —
it never changes the `Vec`'s length — so the `slice_mut` bound check
`len <= b.len()` fails (a panic) whenever the record holds more bytes
than the buffer's current length.  Finally reset `position`, set
`length` and record the terminal flag. -/
def updateBuffer (s : SState) : Res SState :=
  match readC s.source with
  | .peerGone => .fault
  | .blocked => .fault
  | .ok (rec', ch) =>
    let len := rec'.data.length
    if len ≤ s.buffer.length then
      .ok ⟨rec'.last, 0, len, sliceWrite s.buffer 0 rec'.data, ch⟩
    else .fault

/-- Shared tail of `Stream::try_read` after the possible pull: copy
`min(out.len(), self.buffer.len() - self.position)` bytes starting at
`position` and advance `position`.  A `position` beyond the `Vec`'s
length would make the `usize` subtraction wrap and the slice bound
fail, hence the guard. -/
def tryReadCore (t : SState) (outLen : Nat) : Res (List Nat × SState) :=
  if t.position ≤ t.buffer.length then
    let wl := min outLen (t.buffer.length - t.position)
    .ok ((t.buffer.drop t.position).take wl,
         { t with position := t.position + wl })
  else .fault

/-- `Stream::try_read`: on `position == length` either report EOF
(`None`, modelled as `ok none`) when the terminal flag is set, or pull
the next record first; then copy into the out buffer.  The result
carries the bytes copied (their count is the returned `Some(n)`). -/
def tryRead (s : SState) (outLen : Nat) : Res (Option (List Nat × SState)) :=
  if s.position = s.length then
    if s.last then .ok none
    else
      match updateBuffer s with
      | .fault => .fault
      | .ok t =>
        match tryReadCore t outLen with
        | .fault => .fault
        | .ok r => .ok (some r)
  else
    match tryReadCore s outLen with
    | .fault => .fault
    | .ok r => .ok (some r)

/-- `Stream::try_skip`: same pull/EOF structure as `try_read`, but only
advances `position` by `min(amount, self.buffer.len() - self.position)`
and returns that count. -/
def trySkip (s : SState) (amount : Nat) : Res (Option (Nat × SState)) :=
  if s.position = s.length then
    if s.last then .ok none
    else
      match updateBuffer s with
      | .fault => .fault
      | .ok t =>
        if t.position ≤ t.buffer.length then
          let sl := min amount (t.buffer.length - t.position)
          .ok (some (sl, { t with position := t.position + sl }))
        else .fault
  else
    if s.position ≤ s.buffer.length then
      let sl := min amount (s.buffer.length - s.position)
      .ok (some (sl, { s with position := s.position + sl }))
    else .fault

/-- Loop body of `Stream::skip`: `while skipped < amount` call
`try_skip(amount)` — the source passes the full `amount`, not the
remainder — panicking on `Some(0)` (`Not progressing`) and on `None`
(`Unexpected EOF`).  Returns the final state and the total `skipped`. -/
def skipGo (s : SState) (amount skipped : Nat) : Res (SState × Nat) :=
  if _h : skipped < amount then
    match trySkip s amount with
    | .fault => .fault
    | .ok none => .fault
    | .ok (some (n, s')) =>
      if _h0 : n = 0 then .fault
      else skipGo s' amount (skipped + n)
  else .ok (s, skipped)
termination_by amount - skipped
decreasing_by omega

/-- `Stream::skip(amount)`. -/
def skip (s : SState) (amount : Nat) : Res (SState × Nat) :=
  skipGo s amount 0

/-- `Stream::read_u8`: `read` over a one-byte buffer.  `read` calls
`read_at_least(1, buf)`, whose loop runs exactly one iteration on a
one-byte buffer: `Some(0)` panics (`Not progressing`), `None` panics
(`Unexpected EOF`), `Some(1)` fills the byte and returns. -/
def readU8 (s : SState) : Res (Nat × SState) :=
  match tryRead s 1 with
  | .fault => .fault
  | .ok none => .fault
  | .ok (some (bytes, s')) =>
    match bytes with
    | [b] => .ok (b, s')
    | _ => .fault

/-- Loop of `Stream::read_be_usize_n`:
`for i in 0..n { result = result | ((read_u8() as u64) << (8 * (n - i - 1))) }`,
indexed here by the remaining iteration count `r = n - i`, so the
current byte's shift `8 * (n - i - 1)` is `8 * (r - 1)`.  A byte is
below 256 and the shift is at most 56, so the `u64` never wraps and
plain `Nat` arithmetic is exact. -/
def readBeLoop (s : SState) (r acc : Nat) : Res (Nat × SState) :=
  match r with
  | 0 => .ok (acc, s)
  | r + 1 =>
    match readU8 s with
    | .fault => .fault
    | .ok (b, s') => readBeLoop s' r (acc ||| (b <<< (8 * r)))

/-- `Stream::read_be_usize_n(n)`: assert `n > 0 && n <= 8`, then run the
big-endian accumulation loop over all `n` bytes. -/
def readBeUsizeN (s : SState) (n : Nat) : Res (Nat × SState) :=
  if n = 0 ∨ 8 < n then .fault
  else readBeLoop s n 0

/-- `extend_sign_bits(value, n)`: `let shift = 64 - n;`
`(value << shift) as i64 >> shift`.  The `u64` shift truncates modulo
`2 ^ 64`, the cast reinterprets as two's complement, and the arithmetic
right shift of an `i64` is floor division by `2 ^ shift`. -/
def extendSignBits (value : Nat) (n : Nat) : Int :=
  let shift := 64 - n
  let w : Nat := (value <<< shift) % 2 ^ 64
  let x : Int := if w < 2 ^ 63 then (w : Int) else (w : Int) - 2 ^ 64
  Int.fdiv x (2 ^ shift)

/-- `extend_sign(value, n)` = `extend_sign_bits(value, n * 8)`. -/
def extendSign (value : Nat) (n : Nat) : Int :=
  extendSignBits value (n * 8)

/-- `Stream::read_be_int_n(n)` = `extend_sign(read_be_usize_n(n), n)`. -/
def readBeIntN (s : SState) (n : Nat) : Res (Int × SState) :=
  match readBeUsizeN s n with
  | .fault => .fault
  | .ok (v, s') => .ok (extendSign v n, s')

/-! ## Bit reader (`Bitstream`) -/

/-- The `Bitstream` struct: an 8-bit cache, the number of valid bits in
it, and the underlying byte stream. -/
structure BState where
  cache : Nat
  cacheLength : Nat
  stream : SState
deriving DecidableEq, Repr

/-- `Bitstream::new`. -/
def bitstreamNew (s : SState) : BState :=
  ⟨0, 0, s⟩

/-- `Bitstream::read_n(n)`: panic for `n > 32`; serve from the cache when
`n <= cache_length`, else read `ceil((n - cache_length) / 8)` bytes
big-endian, prepend the cache, return the top bits and retain the rest.
`0xFF >> (8 - cache_length)` with `cache_length = 0` is a `u8` shift by
8, which leaves no bits: `Nat.shiftRight` yields 0 there, matching the
behaviour the source's own tests rely on.  The `result as u32` cast
truncates modulo `2 ^ 32`. -/
def readN (n : Nat) (b : BState) : Res (Nat × BState) :=
  if 32 < n then .fault
  else if n ≤ b.cacheLength then
    let result := b.cache >>> (b.cacheLength - n)
    let cl' := b.cacheLength - n
    let cache' := b.cache &&& (0xFF >>> (8 - cl'))
    .ok (result % 2 ^ 32, ⟨cache', cl', b.stream⟩)
  else
    let nToRead := n - b.cacheLength
    let bToRead := nToRead / 8 + if nToRead % 8 > 0 then 1 else 0
    match readBeUsizeN b.stream bToRead with
    | .fault => .fault
    | .ok (rd, s') =>
      let sum := (b.cache <<< (bToRead * 8)) ||| rd
      let cl' := bToRead * 8 - nToRead
      let result := sum >>> cl'
      let cache' := sum &&& (0xFF >>> (8 - cl'))
      .ok (result % 2 ^ 32, ⟨cache', cl', s'⟩)

/-- Run a sequence of `read_n` calls, collecting the returned values. -/
def readNSeq : List Nat → BState → Res (List Nat)
  | [], _ => .ok []
  | n :: ns, b =>
    match readN n b with
    | .fault => .fault
    | .ok (v, b') =>
      match readNSeq ns b' with
      | .fault => .fault
      | .ok vs => .ok (v :: vs)

/-- States reachable from `Bitstream::new` by `read_n` calls with widths
in `[1, 32]` that do not fail. -/
inductive ReachB : BState → Prop where
  | base (s : SState) : ReachB (bitstreamNew s)
  | step (b b' : BState) (n v : Nat) :
      ReachB b → 1 ≤ n → n ≤ 32 → readN n b = .ok (v, b') → ReachB b'

/-! ## Audio records and the CAF muxer (`src/aurora.rs`, `src/caf/mod.rs`) -/

/-- `sample_type::SampleType`. -/
inductive SampleType where
  | unknown
  | unsigned (n : Nat)
  | signed (n : Nat)
  | float (n : Nat)
deriving DecidableEq, Repr

/-- `sample_type::size`. -/
def SampleType.size : SampleType → Nat
  | .unknown => 0
  | .unsigned n => n
  | .signed n => n
  | .float n => n

/-- `endian::Endian`. -/
inductive Endian where
  | big
  | little
deriving DecidableEq, Repr

/-- The `Audio` record.  The `sample_rate: f64` field is represented by
its 64-bit IEEE-754 bit pattern (`sampleRateBits`): the muxer only ever
`transmute`s it to a `u64`, so no floating-point semantics is needed. -/
structure Audio where
  last : Bool
  channels : Nat
  sampleRateBits : Nat
  endian : Endian
  sampleType : SampleType
  data : List Nat
deriving DecidableEq, Repr

/-- Big-endian byte list of the low `8 * k` bits of `v` (the result of
`to_be` on a `k`-byte integer after any `as` cast: the cast's truncation
is absorbed because only bits below `8 * k` are consulted). -/
def beBytes (k : Nat) (v : Nat) : List Nat :=
  match k with
  | 0 => []
  | k + 1 => (v >>> (8 * k)) % 256 :: beBytes k v

/-- The value of a big-endian byte list (most significant first). -/
def beNum (bs : List Nat) : Nat :=
  bs.foldl (fun a b => a * 256 + b) 0

/-- The CAF file header record built by the muxer's first `sink.write`:
grow the reinitialized data to 8 zero bytes, then write `"caff"`, the
big-endian `u16` 1 and the big-endian `u16` 0. -/
def cafHeader : List Nat :=
  sliceWrite (sliceWrite (sliceWrite (List.replicate 8 0)
    0 [0x63, 0x61, 0x66, 0x66]) 4 (beBytes 2 1)) 6 (beBytes 2 0)

/-- `format_flags`: bit 0 set for a `Float` sample type, bit 1 set for
little endianness, built with `|=` as in the source. -/
def formatFlags (a : Audio) : Nat :=
  let f0 : Nat := 0
  let f1 := match a.sampleType with
    | .float _ => f0 ||| 1
    | _ => f0
  if a.endian = .little then f1 ||| 2 else f1

/-- The 44-byte Audio Description chunk built by the muxer's second
`sink.write`: grow to 44 zero bytes, then the slice writes of the
source, in order: `"desc"`, i64 32, the sample-rate bit pattern,
`"lpcm"`, the format flags, bytes-per-packet
`size(sample_type) * channels / 8` as `u32`, `u32` 1, the channel count
as `u32`, and `size(sample_type)` as `u32`, all big-endian. -/
def descChunk (a : Audio) : List Nat :=
  let d0 := List.replicate 44 0
  let d1 := sliceWrite d0 0 [0x64, 0x65, 0x73, 0x63]
  let d2 := sliceWrite d1 4 (beBytes 8 32)
  let d3 := sliceWrite d2 12 (beBytes 8 a.sampleRateBits)
  let d4 := sliceWrite d3 20 [0x6C, 0x70, 0x63, 0x6D]
  let d5 := sliceWrite d4 24 (beBytes 4 (formatFlags a))
  let d6 := sliceWrite d5 28 (beBytes 4 (a.sampleType.size * a.channels / 8))
  let d7 := sliceWrite d6 32 (beBytes 4 1)
  let d8 := sliceWrite d7 36 (beBytes 4 a.channels)
  sliceWrite d8 40 (beBytes 4 a.sampleType.size)

/-- The 12-byte data chunk header built by the muxer's third
`sink.write`: `"data"` then eight `0xFF` bytes (unknown size). -/
def dataChunkHeader : List Nat :=
  sliceWrite (sliceWrite (List.replicate 12 0)
    0 [0x64, 0x61, 0x74, 0x61]) 4 (List.replicate 8 0xFF)

/-- The payload record the muxer emits for an input record: grow the
reinitialized data to the audio record's length and copy its bytes, and
propagate the terminal flag. -/
def payloadRec (a : Audio) : Bin :=
  ⟨a.last, sliceWrite (List.replicate a.data.length 0) 0 a.data⟩

/-- One iteration of `caf::Muxer::run` on the input record `a`: on the
first record, panic for an `Unknown` sample type, otherwise emit the
three framing records and then the payload record; on later records emit
only the payload record.  Framing records keep the `false` terminal flag
their reinitialization left.  Returns the records written to the binary
sink, in order, with the new `first` flag. -/
def muxStep (first : Bool) (a : Audio) : Res (List Bin × Bool) :=
  if first then
    if a.sampleType = .unknown then .fault
    else .ok ([⟨false, cafHeader⟩, ⟨false, descChunk a⟩,
               ⟨false, dataChunkHeader⟩, payloadRec a], false)
  else .ok ([payloadRec a], false)

/-! ## Spec-side byte layouts (for the refinement claim C8)

These definitions follow the specification's words — concatenations of
fields — and are compared against the slice-write constructions the
source performs. -/

/-- The file header as the spec words it: `"caff"`, big-endian `u16` 1,
big-endian `u16` 0. -/
def cafHeaderSpec : List Nat :=
  [0x63, 0x61, 0x66, 0x66] ++ beBytes 2 1 ++ beBytes 2 0

/-- The format flags as the spec words them: bit 0 iff `Float`, bit 1
iff `Little`. -/
def formatFlagsSpec (a : Audio) : Nat :=
  (match a.sampleType with | .float _ => 1 | _ => 0) +
    2 * (if a.endian = .little then 1 else 0)

/-- The desc chunk as the spec words it: the concatenation of its nine
fields. -/
def descChunkSpec (a : Audio) : List Nat :=
  [0x64, 0x65, 0x73, 0x63] ++ beBytes 8 32 ++ beBytes 8 a.sampleRateBits ++
    [0x6C, 0x70, 0x63, 0x6D] ++ beBytes 4 (formatFlagsSpec a) ++
    beBytes 4 (a.sampleType.size * a.channels / 8) ++ beBytes 4 1 ++
    beBytes 4 a.channels ++ beBytes 4 a.sampleType.size

/-- The data chunk header as the spec words it. -/
def dataChunkHeaderSpec : List Nat :=
  [0x64, 0x61, 0x74, 0x61] ++ List.replicate 8 0xFF

/-! ## Theorems -/

/-- The bitwise or of numbers with disjoint bit ranges is their sum. -/
theorem lor_of_disjoint : ∀ (k a b : Nat), a % 2 ^ k = 0 → b < 2 ^ k →
    a ||| b = a + b := by
  intro k
  induction k with
  | zero =>
    intro a b _ hb
    have : b = 0 := by omega
    subst this
    simp
  | succ k ih =>
    intro a b ha hb
    have hdvd : 2 ∣ a := by
      have h1 : (2 : Nat) ∣ 2 ^ (k + 1) := dvd_pow_self 2 k.succ_ne_zero
      exact h1.trans (Nat.dvd_of_mod_eq_zero ha)
    have haq : (a / 2) % 2 ^ k = 0 := by
      obtain ⟨m, hm⟩ := Nat.dvd_of_mod_eq_zero ha
      subst hm
      rw [pow_succ, Nat.mul_comm (2 ^ k) 2, Nat.mul_assoc, Nat.mul_div_cancel_left _ (by norm_num)]
      exact Nat.mul_mod_right _ _
    have hbq : b / 2 < 2 ^ k := by
      rw [pow_succ] at hb
      omega
    have key := ih (a / 2) (b / 2) haq hbq
    have hA : a = Nat.bit false (a / 2) := by
      simp [Nat.bit_val]
      omega
    have hB : b = Nat.bit (decide (b % 2 = 1)) (b / 2) := by
      rcases Nat.mod_two_eq_zero_or_one b with h | h <;>
        simp [Nat.bit_val, h] <;> omega
    rw [hA, hB, Nat.lor_bit]
    rcases Nat.mod_two_eq_zero_or_one b with h | h <;>
      simp [Nat.bit_val, key, h] <;> omega

/-- In `0xFF >> (8 - k)` with `k ≤ 8`, the mask keeps exactly the low
`k` bits. -/
theorem mask255 {k : Nat} (hk : k ≤ 8) :
    (0xFF : Nat) >>> (8 - k) = 2 ^ k - 1 := by
  interval_cases k <;> decide

/-- Anding with the low-`k`-bit mask bounds the result below `2 ^ k`. -/
theorem and_mask_lt {x k : Nat} (hk : k ≤ 8) :
    x &&& (0xFF >>> (8 - k)) < 2 ^ k := by
  rw [mask255 hk]
  have h1 : x &&& (2 ^ k - 1) ≤ 2 ^ k - 1 := Nat.and_le_right
  have h2 : 0 < 2 ^ k := Nat.pos_pow_of_pos k (by norm_num)
  omega

/-- One successful `read_n` with width at most 32 preserves the cache
invariant: at most 7 bits cached, all above the cached count zero. -/
theorem readN_inv {n v : Nat} {b b' : BState} (hn32 : n ≤ 32)
    (hinv : b.cacheLength ≤ 7 ∧ b.cache < 2 ^ b.cacheLength)
    (h : readN n b = .ok (v, b')) :
    b'.cacheLength ≤ 7 ∧ b'.cache < 2 ^ b'.cacheLength := by
  unfold readN at h
  rw [if_neg (by omega)] at h
  by_cases hc : n ≤ b.cacheLength
  · rw [if_pos hc] at h
    simp only [Res.ok.injEq, Prod.mk.injEq] at h
    obtain ⟨-, hb⟩ := h
    subst hb
    refine ⟨by simp; omega, ?_⟩
    exact and_mask_lt (by omega)
  · rw [if_neg hc] at h
    dsimp only at h
    rcases hr : readBeUsizeN b.stream
        ((n - b.cacheLength) / 8 + if (n - b.cacheLength) % 8 > 0 then 1 else 0) with ⟨rd, s'⟩ | _
    · rw [hr] at h
      simp only [Res.ok.injEq, Prod.mk.injEq] at h
      obtain ⟨-, hb⟩ := h
      subst hb
      have hcl : (n - b.cacheLength) / 8 * 8 +
          (if (n - b.cacheLength) % 8 > 0 then 1 else 0) * 8 - (n - b.cacheLength) ≤ 7 := by
        split <;> omega
      constructor
      · show _ - _ ≤ 7
        split <;> omega
      · exact and_mask_lt (by show _ - _ ≤ 8; split <;> omega)
    · rw [hr] at h
      exact absurd h (by simp)

/-- Folding the big-endian accumulation from a nonzero seed. -/
theorem beNum_from (bs : List Nat) :
    ∀ a, bs.foldl (fun x b => x * 256 + b) a = a * 256 ^ bs.length + beNum bs := by
  induction bs with
  | nil => intro a; simp [beNum]
  | cons b bs ih =>
    intro a
    have hb : beNum (b :: bs) = b * 256 ^ bs.length + beNum bs := by
      show List.foldl _ (0 * 256 + b) bs = _
      rw [ih (0 * 256 + b)]
      ring_nf
    simp only [List.foldl_cons, List.length_cons, hb]
    rw [ih (a * 256 + b)]
    ring_nf

/-- The value of a cons in big-endian accumulation. -/
theorem beNum_cons (b : Nat) (bs : List Nat) :
    beNum (b :: bs) = b * 256 ^ bs.length + beNum bs := by
  show List.foldl _ (0 * 256 + b) bs = _
  rw [beNum_from bs (0 * 256 + b)]
  ring_nf

/-- `beBytes` always produces `k` bytes. -/
theorem beBytes_length (k v : Nat) : (beBytes k v).length = k := by
  induction k with
  | zero => rfl
  | succ k ih => simp [beBytes, ih]

/-- `beBytes` produces values below 256. -/
theorem beBytes_lt (k v : Nat) : ∀ x ∈ beBytes k v, x < 256 := by
  induction k with
  | zero => simp [beBytes]
  | succ k ih =>
    intro x hx
    rcases List.mem_cons.mp hx with h | h
    · subst h
      exact Nat.mod_lt _ (by norm_num)
    · exact ih x h

/-- Decoding the big-endian encoding recovers the low `8 * k` bits. -/
theorem beNum_beBytes (k v : Nat) : beNum (beBytes k v) = v % 2 ^ (8 * k) := by
  induction k with
  | zero => simp [beBytes, beNum, Nat.mod_one]
  | succ k ih =>
    show beNum ((v >>> (8 * k)) % 256 :: beBytes k v) = _
    rw [beNum_cons, beBytes_length, ih, Nat.shiftRight_eq_div_pow]
    have h1 : (2 : Nat) ^ (8 * (k + 1)) = 2 ^ (8 * k) * 2 ^ 8 := by
      rw [show 8 * (k + 1) = 8 * k + 8 from by omega, pow_add]
    rw [h1, Nat.mod_mul]
    have h2 : (256 : Nat) ^ k = 2 ^ (8 * k) := by
      rw [show (256 : Nat) = 2 ^ 8 from rfl, ← pow_mul]
    rw [h2]
    ring_nf

/-- `Stream::read_u8` on a stream state with a byte available in the
internal buffer returns that byte and advances the position. -/
theorem readU8_spec (l : Bool) (p L : Nat) (buf : List Nat) (src : Chan)
    (h1 : p < L) (h2 : L ≤ buf.length) :
    readU8 ⟨l, p, L, buf, src⟩ = .ok (buf.getD p 0, ⟨l, p + 1, L, buf, src⟩) := by
  have hp : p < buf.length := lt_of_lt_of_le h1 h2
  unfold readU8 tryRead tryReadCore
  dsimp only
  rw [if_neg (show ¬ p = L from by omega),
    if_pos (show p ≤ buf.length from by omega),
    show min 1 (buf.length - p) = 1 from by omega,
    List.drop_eq_getElem_cons hp]
  dsimp only [List.take_succ_cons, List.take_zero]
  rw [List.getD_eq_getElem buf 0 hp]

/-- The big-endian accumulation loop consumes `r` buffered bytes and ors
their value below the accumulator. -/
theorem readBeLoop_spec :
    ∀ (r : Nat) (l : Bool) (p L acc : Nat) (buf : List Nat) (src : Chan),
    p + r ≤ L → L ≤ buf.length → (∀ x ∈ buf, x < 256) → acc % 2 ^ (8 * r) = 0 →
    readBeLoop ⟨l, p, L, buf, src⟩ r acc =
      .ok (acc + beNum ((buf.drop p).take r), ⟨l, p + r, L, buf, src⟩) := by
  intro r
  induction r with
  | zero =>
    intro l p L acc buf src _ _ _ _
    simp [readBeLoop, beNum]
  | succ r ih =>
    intro l p L acc buf src hpL hLb hball hacc
    have hp : p < buf.length := by omega
    have hbp : buf[p] < 256 := hball _ (List.getElem_mem hp)
    rw [readBeLoop, readU8_spec l p L buf src (by omega) hLb]
    dsimp only
    rw [List.getD_eq_getElem buf 0 hp]
    have hlt : buf[p] <<< (8 * r) < 2 ^ (8 * (r + 1)) := by
      rw [Nat.shiftLeft_eq]
      calc buf[p] * 2 ^ (8 * r) < 256 * 2 ^ (8 * r) :=
            mul_lt_mul_of_pos_right hbp (Nat.pos_pow_of_pos _ (by norm_num))
        _ = 2 ^ (8 * (r + 1)) := by
            rw [show (256 : Nat) = 2 ^ 8 from rfl, ← pow_add]
            congr 1
            omega
    rw [lor_of_disjoint (8 * (r + 1)) acc (buf[p] <<< (8 * r)) hacc hlt]
    rw [ih l (p + 1) L _ buf src (by omega) hLb hball ?hm]
    case hm =>
      rw [Nat.shiftLeft_eq]
      have d1 : 2 ^ (8 * r) ∣ acc :=
        dvd_trans (pow_dvd_pow 2 (by omega)) (Nat.dvd_of_mod_eq_zero hacc)
      have d2 : (2 : Nat) ^ (8 * r) ∣ buf[p] * 2 ^ (8 * r) := dvd_mul_left _ _
      obtain ⟨m, hm⟩ := d1.add d2
      rw [hm]
      exact Nat.mul_mod_right _ _
    have hlen : ((buf.drop (p + 1)).take r).length = r := by
      rw [List.length_take, List.length_drop]
      omega
    have h256 : (256 : Nat) ^ r = 2 ^ (8 * r) := by
      rw [show (256 : Nat) = 2 ^ 8 from rfl, ← pow_mul]
    have hval : acc + buf[p] <<< (8 * r) + beNum ((buf.drop (p + 1)).take r)
        = acc + beNum ((buf.drop p).take (r + 1)) := by
      rw [List.drop_eq_getElem_cons hp, List.take_succ_cons, beNum_cons, hlen,
        h256, Nat.shiftLeft_eq]
      ring_nf
    have hstate : p + 1 + r = p + (r + 1) := by omega
    rw [hval, hstate]

/-- `Stream::read_be_usize_n(n)` over the big-endian encoding of `u`
returns the low `8 * n` bits of `u`. -/
theorem readBeUsizeN_spec (l : Bool) (src : Chan) (n u : Nat)
    (h1 : 1 ≤ n) (h8 : n ≤ 8) :
    readBeUsizeN ⟨l, 0, n, beBytes n u, src⟩ n =
      .ok (u % 2 ^ (8 * n), ⟨l, n, n, beBytes n u, src⟩) := by
  unfold readBeUsizeN
  rw [if_neg (by omega)]
  rw [readBeLoop_spec n l 0 n 0 (beBytes n u) src (by omega)
    (by rw [beBytes_length]) (beBytes_lt n u) (by simp)]
  rw [List.drop_zero, List.take_of_length_le (by rw [beBytes_length]),
    beNum_beBytes]
  simp

/-- `extend_sign` on an `n`-byte value below `2 ^ (8 n)`: identity below
the sign bit, subtract `2 ^ (8 n)` at or above it. -/
theorem extendSign_spec (n u : Nat) (h1 : 1 ≤ n) (h8 : n ≤ 8)
    (hu : u < 2 ^ (8 * n)) :
    extendSign u n =
      if u < 2 ^ (8 * n - 1) then (u : Int) else (u : Int) - 2 ^ (8 * n) := by
  unfold extendSign extendSignBits
  have hs64 : 8 * n + (64 - n * 8) = 64 := by omega
  have hsp : (0 : Int) < 2 ^ (64 - n * 8) := by positivity
  have hw : (u <<< (64 - n * 8)) % 2 ^ 64 = u * 2 ^ (64 - n * 8) := by
    rw [Nat.shiftLeft_eq]
    apply Nat.mod_eq_of_lt
    calc u * 2 ^ (64 - n * 8) < 2 ^ (8 * n) * 2 ^ (64 - n * 8) :=
          mul_lt_mul_of_pos_right hu (Nat.pos_pow_of_pos _ (by norm_num))
      _ = 2 ^ 64 := by rw [← pow_add, hs64]
  simp only [hw]
  have hsplit : 2 ^ (8 * n - 1) * 2 ^ (64 - n * 8) = 2 ^ 63 := by
    rw [← pow_add]
    congr 1
    omega
  by_cases hcase : u < 2 ^ (8 * n - 1)
  · have hw63 : u * 2 ^ (64 - n * 8) < 2 ^ 63 := by
      calc u * 2 ^ (64 - n * 8) < 2 ^ (8 * n - 1) * 2 ^ (64 - n * 8) :=
            mul_lt_mul_of_pos_right hcase (Nat.pos_pow_of_pos _ (by norm_num))
        _ = 2 ^ 63 := hsplit
    rw [if_pos hw63, if_pos hcase]
    push_cast
    exact Int.mul_fdiv_cancel _ (by positivity)
  · have hw63 : ¬ u * 2 ^ (64 - n * 8) < 2 ^ 63 := by
      rw [← hsplit]
      exact not_lt.mpr (Nat.mul_le_mul_right _ (not_lt.mp hcase))
    rw [if_neg hw63, if_neg hcase]
    have hx : ((u * 2 ^ (64 - n * 8) : Nat) : Int) - 2 ^ 64 =
        ((u : Int) - 2 ^ (8 * n)) * 2 ^ (64 - n * 8) := by
      push_cast
      rw [show (18446744073709551616 : Int) = 2 ^ (8 * n) * 2 ^ (64 - n * 8) from by
        rw [← pow_add, hs64]; norm_num]
      ring_nf
    rw [hx]
    exact Int.mul_fdiv_cancel _ (by positivity)

/-- C6.  For `1 ≤ n ≤ 8` and `u < 2 ^ (8 n)`, `read_be_int_n(n)` on a
stream whose next `n` bytes are the big-endian encoding of `u` returns
`u` when `u < 2 ^ (8 n - 1)` and `u - 2 ^ (8 n)` otherwise. -/
theorem claim_C6_sign_extension (n u : Nat) (h1 : 1 ≤ n) (h8 : n ≤ 8)
    (hu : u < 2 ^ (8 * n)) :
    readBeIntN ⟨true, 0, n, beBytes n u, createChan 1⟩ n =
      .ok (if u < 2 ^ (8 * n - 1) then (u : Int) else (u : Int) - 2 ^ (8 * n),
           ⟨true, n, n, beBytes n u, createChan 1⟩) := by
  unfold readBeIntN
  rw [readBeUsizeN_spec true (createChan 1) n u h1 h8, Nat.mod_eq_of_lt hu]
  dsimp only
  rw [extendSign_spec n u h1 h8 hu]

/-- C6 witness: one byte `0x80` read as a signed big-endian 1-byte
integer yields `-128`. -/
theorem claim_C6_sign_extension_witness :
    readBeIntN ⟨true, 0, 1, beBytes 1 128, createChan 1⟩ 1 =
      .ok (if 128 < 2 ^ (8 * 1 - 1) then (128 : Int) else (128 : Int) - 2 ^ (8 * 1),
           ⟨true, 1, 1, beBytes 1 128, createChan 1⟩) :=
  claim_C6_sign_extension 1 128 (by decide) (by decide) (by decide)

/-- `getD` of an append at the length of the prefix. -/
theorem getD_append_len (pre rest : List Bin) (d : Bin) :
    (pre ++ rest).getD pre.length d = rest.getD 0 d := by
  induction pre with
  | nil => simp
  | cons a as ih => simpa using ih

/-- `set` of an append at the length of the prefix. -/
theorem set_append_len (pre : List Bin) (x v : Bin) (rest : List Bin) :
    (pre ++ x :: rest).set pre.length v = pre ++ v :: rest := by
  induction pre with
  | nil => simp
  | cons a as _ih => simp

/-- A run of `k` writes on a channel whose next `k + m` slots (from the
write index on) are still empty: each write lands in the next slot in
order and stores the record its mutator builds from the reinitialized
slot. -/
theorem writeAll_spec : ∀ (fs : List (Bin → Bin)) (pre : List Bin) (m : Nat),
    writeAll fs ⟨pre ++ List.replicate (fs.length + m) emptyBin, 0, pre.length,
        1, 1, pre.length, fs.length + m⟩ =
      .ok ⟨(pre ++ fs.map (fun f => f emptyBin)) ++ List.replicate m emptyBin, 0,
          pre.length + fs.length, 1, 1, pre.length + fs.length, m⟩ := by
  intro fs
  induction fs with
  | nil =>
    intro pre m
    simp [writeAll]
  | cons f fs ih =>
    intro pre m
    rw [show (f :: fs).length + m = (fs.length + m) + 1 from by simp; omega,
      List.replicate_succ]
    rw [writeAll]
    have hw : writeC f ⟨pre ++ emptyBin :: List.replicate (fs.length + m) emptyBin,
          0, pre.length, 1, 1, pre.length, fs.length + m + 1⟩ =
        .ok ⟨(pre ++ [f emptyBin]) ++ List.replicate (fs.length + m) emptyBin,
          0, pre.length + 1, 1, 1, pre.length + 1, fs.length + m⟩ := by
      unfold writeC
      rw [if_neg (show ¬((1 : Nat) = 0) from by norm_num)]
      rw [if_neg (show ¬(fs.length + m + 1 = 0) from by omega)]
      dsimp only
      rw [Nat.mod_eq_of_lt (by simp)]
      rw [getD_append_len, set_append_len]
      simp [reinitBin, emptyBin]
    rw [hw]
    dsimp only
    rw [show pre.length + 1 = (pre ++ [f emptyBin]).length from by simp]
    rw [ih (pre ++ [f emptyBin]) m]
    rw [show ((pre ++ [f emptyBin]) ++ List.map (fun f => f emptyBin) fs) =
        pre ++ List.map (fun f => f emptyBin) (f :: fs) from by simp]
    rw [show (pre ++ [f emptyBin]).length + fs.length = pre.length + (f :: fs).length
        from by simp; omega]

/-- A run of `m` reads on a channel with a live producer, at least `m`
`not_empty` permits and the read index at least `m` slots from the end:
the reads observe the next `m` slots in order. -/
theorem readAll_spec : ∀ (m : Nat) (slots : List Bin) (r0 w ne nf : Nat),
    m ≤ ne → r0 + m ≤ slots.length →
    readAll m ⟨slots, r0, w, 1, 1, ne, nf⟩ =
      .ok ((slots.drop r0).take m, ⟨slots, r0 + m, w, 1, 1, ne - m, nf + m⟩) := by
  intro m
  induction m with
  | zero =>
    intro slots r0 w ne nf _ _
    simp [readAll]
  | succ m ih =>
    intro slots r0 w ne nf hne hr
    have hr0 : r0 < slots.length := by omega
    rw [readAll]
    have hrc : readC ⟨slots, r0, w, 1, 1, ne, nf⟩ =
        .ok (slots.getD r0 emptyBin, ⟨slots, r0 + 1, w, 1, 1, ne - 1, nf + 1⟩) := by
      unfold readC
      rw [if_neg (show ¬((1 : Nat) = 0 ∧ r0 = w) from by simp)]
      rw [if_neg (show ¬(ne = 0) from by omega)]
      dsimp only
      rw [Nat.mod_eq_of_lt hr0]
    rw [hrc]
    dsimp only
    rw [ih slots (r0 + 1) w (ne - 1) (nf + 1) (by omega) (by omega)]
    rw [List.drop_eq_getElem_cons hr0, List.take_succ_cons,
      List.getD_eq_getElem slots emptyBin hr0]
    rw [show r0 + 1 + m = r0 + (m + 1) from by omega,
      show ne - 1 - m = ne - (m + 1) from by omega,
      show nf + 1 + m = nf + (m + 1) from by omega]

/-- C1 (FIFO).  On a channel of any capacity created by
`channel::create`, any sequence of `k ≤ capacity` `Sink::write` calls
followed by `k` `Source::read` calls all complete, and the `i`-th read's
observer is invoked on exactly the record the `i`-th write's mutator
left in its slot (the mutator applied to the reinitialized empty slot) —
same contents, same order. -/
theorem claim_C1_fifo (capacity : Nat) (fs : List (Bin → Bin))
    (hk : fs.length ≤ capacity) :
    ∃ c1 c2, writeAll fs (createChan capacity) = .ok c1 ∧
      readAll fs.length c1 = .ok (fs.map (fun f => f emptyBin), c2) := by
  have hw := writeAll_spec fs [] (capacity - fs.length)
  rw [show fs.length + (capacity - fs.length) = capacity from by omega] at hw
  simp only [List.nil_append, List.length_nil, Nat.zero_add] at hw
  have hr := readAll_spec fs.length
    (fs.map (fun f => f emptyBin) ++ List.replicate (capacity - fs.length) emptyBin)
    0 fs.length fs.length (capacity - fs.length) (le_refl _) (by simp)
  rw [List.drop_zero] at hr
  rw [show ((fs.map (fun f => f emptyBin) ++
      List.replicate (capacity - fs.length) emptyBin).take fs.length) =
      fs.map (fun f => f emptyBin) from by
    rw [show fs.length = (fs.map (fun f => f emptyBin)).length from
      (List.length_map _ _).symm]
    exact List.take_left _ _] at hr
  simp only [Nat.zero_add, Nat.sub_self] at hr
  exact ⟨_, _, hw, hr⟩

/-- C1 witness: a capacity-2 channel, two writes (a one-byte record then
an empty terminal record) followed by two reads. -/
theorem claim_C1_fifo_witness :
    ∃ c1 c2, writeAll [fun _ => ⟨false, [7]⟩, fun _ => ⟨true, []⟩]
        (createChan 2) = .ok c1 ∧
      readAll ([fun _ => ⟨false, [7]⟩, fun _ => (⟨true, []⟩ : Bin)] :
          List (Bin → Bin)).length c1 =
        .ok (([fun _ => ⟨false, [7]⟩, fun _ => (⟨true, []⟩ : Bin)] :
          List (Bin → Bin)).map (fun f => f emptyBin), c2) :=
  claim_C1_fifo 2 [fun _ => ⟨false, [7]⟩, fun _ => ⟨true, []⟩] (by decide)

/-- The slice-write construction of the file header equals the spec's
concatenation. -/
theorem cafHeader_eq : cafHeader = cafHeaderSpec := by decide

/-- The slice-write construction of the data chunk header equals the
spec's concatenation. -/
theorem dataChunkHeader_eq : dataChunkHeader = dataChunkHeaderSpec := by decide

/-- The slice-write construction of the desc chunk equals the spec's
field concatenation, for every audio record. -/
theorem descChunk_eq (a : Audio) : descChunk a = descChunkSpec a := by
  obtain ⟨last, ch, rate, e, st, data⟩ := a
  cases st <;> cases e <;>
    simp [descChunk, descChunkSpec, sliceWrite, beBytes, formatFlags,
      formatFlagsSpec, SampleType.size, List.replicate]

/-- The payload record the muxer builds is the audio record's bytes
verbatim with the terminal flag propagated. -/
theorem payloadRec_eq (a : Audio) : payloadRec a = ⟨a.last, a.data⟩ := by
  unfold payloadRec sliceWrite
  simp

/-- C8.  On the first audio record with a known sample type, the muxer
emits exactly the three framing records — the 8-byte `"caff"` header
with big-endian u16 version 1 and flags 0, the 44-byte desc chunk with
the spec's nine fields, and the 12-byte `"data"` header padded with
eight `0xFF` bytes — followed by the first payload; on every later
record it forwards the audio bytes verbatim with the terminal flag
propagated. -/
theorem claim_C8_caf_first_record_framing (a : Audio)
    (h : a.sampleType ≠ .unknown) :
    muxStep true a = .ok ([⟨false, cafHeaderSpec⟩, ⟨false, descChunkSpec a⟩,
        ⟨false, dataChunkHeaderSpec⟩, ⟨a.last, a.data⟩], false) ∧
    muxStep false a = .ok ([⟨a.last, a.data⟩], false) := by
  constructor
  · simp [muxStep, h, cafHeader_eq, descChunk_eq, dataChunkHeader_eq,
      payloadRec_eq]
  · simp [muxStep, payloadRec_eq]

/-- C8 witness: the spec's concrete scenario — 2 channels, 44100 Hz
(bit pattern `0x40E5888000000000`), little-endian signed 16-bit samples,
8 payload bytes, terminal. -/
theorem claim_C8_caf_first_record_framing_witness :
    muxStep true ⟨true, 2, 0x40E5888000000000, .little, .signed 16,
        [1, 2, 3, 4, 5, 6, 7, 8]⟩ =
      .ok ([⟨false, cafHeaderSpec⟩,
            ⟨false, descChunkSpec ⟨true, 2, 0x40E5888000000000, .little,
              .signed 16, [1, 2, 3, 4, 5, 6, 7, 8]⟩⟩,
            ⟨false, dataChunkHeaderSpec⟩,
            ⟨true, [1, 2, 3, 4, 5, 6, 7, 8]⟩], false) ∧
    muxStep false ⟨true, 2, 0x40E5888000000000, .little, .signed 16,
        [1, 2, 3, 4, 5, 6, 7, 8]⟩ =
      .ok ([⟨true, [1, 2, 3, 4, 5, 6, 7, 8]⟩], false) :=
  claim_C8_caf_first_record_framing
    ⟨true, 2, 0x40E5888000000000, .little, .signed 16,
      [1, 2, 3, 4, 5, 6, 7, 8]⟩ (by decide)

/-- C10.  In every `Bitstream` state reachable from `Bitstream::new` by
non-failing `read_n` calls with widths in `[1, 32]`, at most 7 bits are
cached and the cache's bits above the low `cache_length` are zero. -/
theorem claim_C10_cache_invariant (b : BState) (h : ReachB b) :
    b.cacheLength ≤ 7 ∧ b.cache < 2 ^ b.cacheLength := by
  induction h with
  | base s => exact ⟨by simp [bitstreamNew], by simp [bitstreamNew]⟩
  | step b b' n v _ h1 h32 heq ih => exact readN_inv h32 ih heq

/-- C10 witness: the invariant at the state reached by reading 4 bits
from a fresh bitstream over the byte `0xAB` (cache `0xB`, 4 bits). -/
theorem claim_C10_cache_invariant_witness :
    (⟨0xB, 4, ⟨true, 1, 1, [0xAB], createChan 1⟩⟩ : BState).cacheLength ≤ 7 ∧
    (⟨0xB, 4, ⟨true, 1, 1, [0xAB], createChan 1⟩⟩ : BState).cache <
      2 ^ (⟨0xB, 4, ⟨true, 1, 1, [0xAB], createChan 1⟩⟩ : BState).cacheLength :=
  claim_C10_cache_invariant _
    (ReachB.step _ _ 4 10
      (ReachB.base ⟨true, 0, 1, [0xAB], createChan 1⟩)
      (by decide) (by decide) (by decide))

/-- C2.  `Source::read` panics with `PeerGone` exactly when, at entry,
the producer-alive count is zero and `read_index == write_index`; when
the producer is gone but unread records remain (`read < write`, with the
`not_empty` permit count matching the number of buffered records), the
read succeeds and drains one record.  `Sink::write` panics with
`PeerGone` exactly when, at entry, the consumer-alive count is zero. -/
theorem claim_C2_peer_gone_conditions (c : Chan) (f : Bin → Bin) :
    (readC c = CRes.peerGone ↔ c.rcWrite = 0 ∧ c.rIdx = c.wIdx) ∧
    (writeC f c = CRes.peerGone ↔ c.rcRead = 0) ∧
    (c.rcWrite = 0 → c.rIdx < c.wIdx → c.notEmpty = c.wIdx - c.rIdx →
      ∃ r c', readC c = CRes.ok (r, c')) := by
  refine ⟨?_, ?_, ?_⟩
  · unfold readC
    by_cases h : c.rcWrite = 0 ∧ c.rIdx = c.wIdx
    · simp [h]
    · by_cases h2 : c.notEmpty = 0 <;> simp [h, h2]
  · unfold writeC
    by_cases h : c.rcRead = 0
    · simp [h]
    · by_cases h2 : c.notFull = 0 <;> simp [h, h2]
  · intro h0 h1 h2
    unfold readC
    rw [if_neg (by omega), if_neg (by omega)]
    exact ⟨_, _, rfl⟩

/-- C2 witness: a channel with a live producer and consumer, one
buffered record, instantiated in the theorem. -/
theorem claim_C2_peer_gone_conditions_witness :
    (readC ⟨[⟨false, [7]⟩], 0, 1, 0, 0, 1, 0⟩ = CRes.peerGone ↔
      (0 : Nat) = 0 ∧ (0 : Nat) = 1) ∧
    (writeC id ⟨[⟨false, [7]⟩], 0, 1, 0, 0, 1, 0⟩ = CRes.peerGone ↔
      (0 : Nat) = 0) ∧
    ((0 : Nat) = 0 → (0 : Nat) < 1 → (1 : Nat) = 1 - 0 →
      ∃ r c', readC ⟨[⟨false, [7]⟩], 0, 1, 0, 0, 1, 0⟩ = CRes.ok (r, c')) :=
  claim_C2_peer_gone_conditions ⟨[⟨false, [7]⟩], 0, 1, 0, 0, 1, 0⟩ id

/-- C3 (code bug).  `impl Drop for Sink` only decrements the
producer-alive count: it releases no `not_empty` permit and leaves both
semaphores untouched.  A consumer blocked inside `not_empty.acquire()`
therefore never receives a permit from the producer's destruction and is
left blocked forever, where the claim (and the spec) require it to be
woken to re-check the peer-alive condition and observe `PeerGone`. -/
theorem claim_C3_sink_drop_releases_no_permits (c : Chan) :
    (sinkDrop c).notEmpty = c.notEmpty ∧
    (sinkDrop c).notFull = c.notFull ∧
    (sinkDrop c).rcWrite = c.rcWrite - 1 :=
  ⟨rfl, rfl, rfl⟩

/-- C4 (code bug).  A fresh `Stream` over a capacity-1 channel holding
the single record `{data: [0x00], last: true}` (the channel state
`writeC` produces from `create(1)`): `try_read` with a one-byte output
buffer faults instead of returning `Some(1)` with the byte: the
`update_buffer` pull only `reserve`s capacity and never sets the
internal `Vec`'s length, so `b.slice_mut(0, 1)` on the length-0 buffer
is out of bounds. -/
theorem claim_C4_try_read_faults_on_first_record :
    writeC (fun _ => ⟨true, [0]⟩) (createChan 1) =
      CRes.ok ⟨[⟨true, [0]⟩], 0, 1, 1, 1, 1, 0⟩ ∧
    tryRead (streamNew ⟨[⟨true, [0]⟩], 0, 1, 1, 1, 1, 0⟩) 1 = Res.fault := by
  constructor <;> rfl

/-- C5 (code bug).  A stream with 3 unread buffered bytes and one more
3-byte terminal record queued in its channel: `skip(5)` consumes 6 bytes
(its loop passes the full `amount` to every `try_skip` call instead of
the remainder), returning total `skipped` 6 where the claim — and
`skip`'s own doc comment, "Skips exactly `amount` bytes" — require
exactly 5. -/
theorem claim_C5_skip_overshoots :
    skip ⟨false, 0, 3, [1, 2, 3], ⟨[⟨true, [4, 5, 6]⟩], 0, 1, 1, 1, 1, 0⟩⟩ 5 =
      Res.ok (⟨true, 3, 3, [4, 5, 6], ⟨[⟨true, [4, 5, 6]⟩], 1, 1, 1, 1, 0, 1⟩⟩, 6) := by
  simp [skip, skipGo, trySkip, updateBuffer, readC, sliceWrite]

/-- C7.  On a fresh `Bitstream` whose underlying stream holds the bytes
`[0xFF, 0xAA, 0x44]`, the call sequence
`read_n(8), read_n(4), read_n(2), read_n(1), read_n(1), read_n(3),
read_n(3), read_n(2)` returns `0xFF, 0xA, 2, 1, 0, 2, 1, 0` in order. -/
theorem claim_C7_bit_reader_scenario :
    readNSeq [8, 4, 2, 1, 1, 3, 3, 2]
      (bitstreamNew ⟨true, 0, 3, [0xFF, 0xAA, 0x44], createChan 1⟩) =
      Res.ok [0xFF, 0xA, 2, 1, 0, 2, 1, 0] := by
  decide

/-- C9 counterexample.  `channel::create` performs no capacity check:
called with capacity 0 it succeeds (returning the endpoint pair over a
zero-slot channel) instead of failing with `CapacityZero` as the claim
states. -/
theorem claim_C9_create_zero_cex :
    createChanChecked 0 = Res.ok ⟨[], 0, 0, 1, 1, 0, 0⟩ := rfl

/-- C9 amended.  `create` succeeds for every capacity, including 0:
it yields a producer and a consumer endpoint (both alive counts 1) over
a channel whose `N` slots are all pre-constructed to the empty state,
with indices 0, no `not_empty` permit and `N` `not_full` permits. -/
theorem claim_C9_create_amended (capacity : Nat) :
    createChanChecked capacity =
      Res.ok ⟨List.replicate capacity emptyBin, 0, 0, 1, 1, 0, capacity⟩ := rfl

end Aurora
